import Mathlib

/-
Verification development for the Refactorizor file-mutation-and-commit
pipeline (src/refactorizor.py).

Modelling conventions (shallow embedding):
  - File contents are `List Char`; the filesystem is an association list
    from path (`String`) to contents, first entry wins on lookup.
  - Python exceptions become an error type `PErr`; a function that can
    raise returns `Except PErr _`.  Because side effects in the source are
    applied to the real filesystem immediately (not buffered), the
    pipeline driver threads the filesystem state explicitly and keeps the
    state reached so far when an exception propagates.
  - `re.sub` is modelled for patterns and replacements without regex
    metacharacters (the substitution discipline the claims are about):
    global, leftmost, non-overlapping literal substitution.  The Python
    zero-width-pattern behaviour (empty pattern matches at every position)
    is modelled faithfully as well.
  - The git collaborator (gitpython) is modelled by `GitRepo`: the index
    is keyed by path (staging an already-staged path leaves one entry),
    and `index.commit` appends a commit and returns its identifier,
    modelled as the position of the new commit.
  - A Python function without a `return` statement returns `None`; the
    value returned by `execute` is modelled by `PyValue` so that "what
    does `execute` return" is a statement about the embedding.
-/

set_option autoImplicit false

namespace Refactorizor

/-! ## Filesystem model -/

/-- Filesystem: association list from path to file contents. -/
abbrev FS : Type := List (String × List Char)

/-- Look a path up in the filesystem; `none` means the file does not exist
(`os.path.exists` is false). -/
def fsRead : FS → String → Option (List Char)
  | [], _ => none
  | (q, w) :: rest, p => if q = p then some w else fsRead rest p

/-- Write (or create) a file, leaving every other path untouched. -/
def fsWrite : FS → String → List Char → FS
  | [], p, v => [(p, v)]
  | (q, w) :: rest, p, v => if q = p then (p, v) :: rest else (q, w) :: fsWrite rest p v

/-! ## Data model: changes and errors -/

/-- Change: one mutation directive.  The source represents a change as a
dict; the fields a given `change_type` does not use are simply never read,
so they are modelled as always-present fields. -/
structure Change where
  description : String
  target_file : String
  change_type : String
  content : List Char
  search_pattern : List Char
  replacement : List Char

/-- Errors of the pipeline (each `ValueError` the source raises). -/
inductive PErr where
  | fileNotFound (path : String)
  | patternNotMatched (pat : String) (file : String)
  | unknownChangeType (ct : String)
deriving DecidableEq

/-- Message rendering of each error, following the f-strings of the source. -/
def errMsg : PErr → String
  | .fileNotFound p => "File " ++ p ++ " not found"
  | .patternNotMatched pat f => "Search pattern \x27" ++ pat ++ "\x27 not found in " ++ f
  | .unknownChangeType ct => "Unknown change_type: " ++ ct

/-- Value returned by a Python call: `None`, or a commit identifier. -/
inductive PyValue where
  | none
  | commitId (n : Nat)
deriving DecidableEq

/-! ## Substitution (the model of `re.sub` on literal patterns) -/

/-- Substitution, modelling `re.sub(pat, repl, s)` for a literal pattern:
replace every leftmost non-overlapping occurrence of `pat` by `repl`; an
empty pattern matches (zero-width) before every character and at the end. -/
def reSub (pat repl : List Char) : List Char → List Char
  | [] => if pat.isEmpty then repl else []
  | c :: cs =>
    if !pat.isEmpty && pat.isPrefixOf (c :: cs) then
      repl ++ reSub pat repl (cs.drop (pat.length - 1))
    else if pat.isEmpty then
      repl ++ c :: reSub pat repl cs
    else
      c :: reSub pat repl cs
termination_by s => s.length
decreasing_by
  · simp only [List.length_drop, List.length_cons]
    omega
  · simp
  · simp

/-- Occurrence test: does `pat` occur as a contiguous run inside `s`? -/
def occursIn (pat : List Char) : List Char → Bool
  | [] => pat.isEmpty
  | c :: cs => pat.isPrefixOf (c :: cs) || occursIn pat cs

/-- Split `s` at every leftmost non-overlapping occurrence of `pat`
(the pieces between occurrences, in order).  Used only to state what
"substitute ALL occurrences" means, independently of `reSub`. -/
def splitOnSub (pat : List Char) : List Char → List (List Char)
  | [] => [[]]
  | c :: cs =>
    if !pat.isEmpty && pat.isPrefixOf (c :: cs) then
      [] :: splitOnSub pat (cs.drop (pat.length - 1))
    else
      match splitOnSub pat cs with
      | [] => [[c]]
      | h :: t => (c :: h) :: t
termination_by s => s.length
decreasing_by
  · simp only [List.length_drop, List.length_cons]
    omega
  · simp

/-- Join a list of pieces, putting `sep` between consecutive pieces. -/
def joinWith (sep : List Char) : List (List Char) → List Char
  | [] => []
  | [a] => a
  | a :: b :: t => a ++ sep ++ joinWith sep (b :: t)

/-- Specification-side reading of the claim "the new contents are the
original contents with ALL occurrences of the search pattern substituted
by the replacement": cut the text at every occurrence of the pattern and
sew the pieces back together with the replacement. -/
def globalSubstitution (pat repl s : List Char) : List Char :=
  joinWith repl (splitOnSub pat s)

/-! ## Pipeline state: changelog collaborator and git collaborator -/

/-- Git repository model: a path-keyed index (staging is idempotent per
path, as in a real index) and the list of commit messages so far. -/
structure GitRepo where
  index : List String
  commits : List String
deriving DecidableEq

/-- Stage one path into the index (`index.add` on one path): the index is
keyed by path, so a path already staged stays staged once. -/
def stage1 (idx : List String) (p : String) : List String :=
  if p ∈ idx then idx else idx ++ [p]

/-- Stage a list of paths, left to right (`repo.index.add(paths)`). -/
def stageAll (ps : List String) (idx : List String) : List String :=
  ps.foldl stage1 idx

/-- Commit the index (`repo.index.commit(msg)`): records the message and
returns the new commit object, modelled by its position. -/
def gitCommit (repo : GitRepo) (msg : String) : GitRepo × Nat :=
  ({ repo with commits := repo.commits ++ [msg] }, repo.commits.length)

/-- State threaded through the pipeline: the working tree (which also
holds `CODEBASE.md`) and the git repository. -/
structure PipeState where
  fs : FS
  repo : GitRepo

/-! ## The pipeline operations (PythonJavaScriptRefactorizor) -/

/-- Translation of `PythonJavaScriptRefactorizor.apply_changes`: check the
target exists, then append, replace (rejecting a substitution that leaves
the contents identical), or fail on an unknown change type. -/
def apply_changes (fs : FS) (change : Change) : Except PErr FS :=
  match fsRead fs change.target_file with
  | none => .error (.fileNotFound change.target_file)
  | some content =>
    if change.change_type = "append" then
      .ok (fsWrite fs change.target_file (content ++ change.content))
    else if change.change_type = "replace" then
      let updated_content := reSub change.search_pattern change.replacement content
      if updated_content = content then
        .error (.patternNotMatched (String.mk change.search_pattern) change.target_file)
      else
        .ok (fsWrite fs change.target_file updated_content)
    else
      .error (.unknownChangeType change.change_type)

/-- Phase 1 driver (the `for change in self.changes` loop of `execute`):
apply each change in order; on the first exception, stop and also report
the filesystem as it stands at that moment (earlier writes persist). -/
def applyList : List Change → FS → FS × Option PErr
  | [], fs => (fs, none)
  | c :: rest, fs =>
    match apply_changes fs c with
    | .error e => (fs, some e)
    | .ok fs' => applyList rest fs'

/-- Changelog body written by the loop in `update_codebase_md`: one
bullet line per change, in order. -/
def changelogLines : List Change → List Char
  | [] => []
  | c :: rest => ("- " ++ c.description ++ "\n").data ++ changelogLines rest

/-- Translation of `update_codebase_md`: open `CODEBASE.md` in append mode
(creating it when absent), append the section header and the bullets. -/
def update_codebase_md (changes : List Change) (fs : FS) : FS :=
  let old := (fsRead fs "CODEBASE.md").getD []
  fsWrite fs "CODEBASE.md" (old ++ "\n\n## Recent Changes\n\n".data ++ changelogLines changes)

/-- Commit message built by `commit_changes`: fixed preamble, then the
descriptions joined by newlines. -/
def commitMessage (changes : List Change) : String :=
  "Refactorizor script applied with the following changes:\n" ++
    String.intercalate "\n" (changes.map (fun c => c.description))

/-- Translation of `commit_changes`: stage `CODEBASE.md` plus every
target file, commit with the built message; the commit object returned by
the git collaborator is discarded, as in the source. -/
def commit_changes (changes : List Change) (repo : GitRepo) : GitRepo :=
  let repo1 : GitRepo :=
    { repo with index := stageAll ("CODEBASE.md" :: changes.map (fun c => c.target_file)) repo.index }
  (gitCommit repo1 (commitMessage changes)).1

/-- Translation of `Refactorizor.execute`: apply all changes, then
document, then commit.  The second component is the value `execute`
returns to its caller (`PyValue.none`, since the Python function has no
`return` statement); on an exception it is the error instead, and the
state records exactly the writes performed before the failure. -/
def execute (changes : List Change) (st : PipeState) : PipeState × Except PErr PyValue :=
  match applyList changes st.fs with
  | (fs1, some e) => ({ st with fs := fs1 }, .error e)
  | (fs1, Option.none) =>
    let fs2 := update_codebase_md changes fs1
    let repo2 := commit_changes changes st.repo
    ({ fs := fs2, repo := repo2 }, .ok PyValue.none)

/-! ## Concrete sample data (used by witnesses and counterexamples) -/

/-- Sample filesystem: two files. -/
def fs0 : FS := [("a.txt", ['x']), ("b.txt", ['f','o','o',' ','f','o','o'])]

/-- Sample pipeline state over `fs0` with a fresh repository. -/
def st0 : PipeState := { fs := fs0, repo := { index := [], commits := [] } }

/-- Sample append change on `a.txt`. -/
def cAppend : Change :=
  { description := "add hi", target_file := "a.txt", change_type := "append",
    content := ['h','i'], search_pattern := [], replacement := [] }

/-- Sample replace change on `b.txt` (foo -> bar, two occurrences). -/
def cReplace : Change :=
  { description := "foo to bar", target_file := "b.txt", change_type := "replace",
    content := [], search_pattern := ['f','o','o'], replacement := ['b','a','r'] }

/-- Sample change whose target file does not exist. -/
def cMissing : Change :=
  { description := "touch missing", target_file := "missing.txt", change_type := "append",
    content := ['z'], search_pattern := [], replacement := [] }

/-- Sample replace change whose pattern does not occur in `a.txt`. -/
def cNoMatch : Change :=
  { description := "no match", target_file := "a.txt", change_type := "replace",
    content := [], search_pattern := ['q','q'], replacement := ['z'] }

/-- Sample change with an unknown change type. -/
def cDelete : Change :=
  { description := "delete stuff", target_file := "a.txt", change_type := "delete",
    content := [], search_pattern := [], replacement := [] }

/-! ## Helper lemmas: filesystem -/

theorem fsRead_fsWrite_same (fs : FS) (p : String) (v : List Char) :
    fsRead (fsWrite fs p v) p = some v := by
  induction fs with
  | nil => simp [fsWrite, fsRead]
  | cons hd tl ih =>
    obtain ⟨q, w⟩ := hd
    by_cases h : q = p <;> simp [fsWrite, fsRead, h, ih]

theorem fsRead_fsWrite_other (fs : FS) (p q : String) (v : List Char) (h : q ≠ p) :
    fsRead (fsWrite fs p v) q = fsRead fs q := by
  induction fs with
  | nil => simp [fsWrite, fsRead, Ne.symm h]
  | cons hd tl ih =>
    obtain ⟨r, w⟩ := hd
    by_cases hr : r = p
    · subst hr
      simp [fsWrite, fsRead, Ne.symm h]
    · simp [fsWrite, fsRead, hr, ih]

/-! ## Helper lemmas: substitution -/

theorem reSub_of_not_occurs (pat repl s : List Char) (h : occursIn pat s = false) :
    reSub pat repl s = s := by
  induction s with
  | nil =>
    have hp : pat.isEmpty = false := by simpa [occursIn] using h
    simp [reSub, hp]
  | cons c cs ih =>
    have h2 : pat.isPrefixOf (c :: cs) = false ∧ occursIn pat cs = false := by
      simpa [occursIn, Bool.or_eq_false_iff] using h
    have hp : pat.isEmpty = false := by
      cases pat with
      | nil => simp [List.isPrefixOf] at h2
      | cons p ps => rfl
    rw [reSub]
    simp [h2.1, hp, ih h2.2]

theorem occursIn_eq_true_iff (pat s : List Char) :
    occursIn pat s = true ↔ ∃ a b, s = a ++ pat ++ b := by
  induction s with
  | nil =>
    constructor
    · intro h
      have : pat = [] := by simpa [occursIn, List.isEmpty_iff] using h
      exact ⟨[], [], by simp [this]⟩
    · rintro ⟨a, b, hab⟩
      have : pat = [] := by
        rcases List.append_eq_nil.mp (List.append_eq_nil.mp hab.symm).1 with ⟨-, h2⟩
        exact h2
      simp [occursIn, this]
  | cons c cs ih =>
    rw [occursIn, Bool.or_eq_true, ih, List.isPrefixOf_iff_prefix]
    constructor
    · rintro (⟨t, ht⟩ | ⟨a, b, rfl⟩)
      · exact ⟨[], t, by simp [← ht]⟩
      · exact ⟨c :: a, b, by simp⟩
    · rintro ⟨a, b, hab⟩
      cases a with
      | nil =>
        exact Or.inl ⟨b, by simpa using hab.symm⟩
      | cons a0 a2 =>
        rw [List.cons_append, List.cons_append] at hab
        obtain ⟨rfl, h2⟩ := List.cons.injEq .. ▸ hab
        exact Or.inr ⟨a2, b, by simpa using h2⟩

theorem splitOnSub_ne_nil (pat s : List Char) : splitOnSub pat s ≠ [] := by
  match s with
  | [] => simp [splitOnSub]
  | c :: cs =>
    rw [splitOnSub]
    split
    · simp
    · split <;> simp

theorem reSub_eq_globalSubstitution (pat repl : List Char) (hp : pat.isEmpty = false)
    (s : List Char) : reSub pat repl s = globalSubstitution pat repl s := by
  suffices main : ∀ n (s : List Char), s.length ≤ n →
      reSub pat repl s = joinWith repl (splitOnSub pat s) by
    exact main s.length s le_rfl
  intro n
  induction n with
  | zero =>
    intro s hs
    obtain rfl : s = [] := List.length_eq_zero.mp (Nat.le_zero.mp hs)
    simp [reSub, splitOnSub, joinWith, hp]
  | succ n ih =>
    intro s hs
    match s with
    | [] => simp [reSub, splitOnSub, joinWith, hp]
    | c :: cs =>
      have hcs : cs.length ≤ n := by
        simpa [Nat.succ_le_succ_iff] using hs
      by_cases hm : pat.isPrefixOf (c :: cs) = true
      · rw [reSub, splitOnSub]
        simp only [hp, hm, Bool.not_false, Bool.and_self, if_true, Bool.true_and,
          Bool.not_true, Bool.false_and, if_false]
        have hlen : (List.drop (pat.length - 1) cs).length ≤ n := by
          simp only [List.length_drop]
          omega
        rw [ih _ hlen]
        obtain ⟨h1, t, hL⟩ : ∃ h1 t, splitOnSub pat (List.drop (pat.length - 1) cs) = h1 :: t := by
          rcases hE : splitOnSub pat (List.drop (pat.length - 1) cs) with _ | ⟨h1, t⟩
          · exact absurd hE (splitOnSub_ne_nil _ _)
          · exact ⟨h1, t, rfl⟩
        rw [hL]
        simp [joinWith]
      · rw [reSub, splitOnSub]
        simp only [hp, hm, Bool.not_false, Bool.true_and, if_false]
        rw [ih cs hcs]
        obtain ⟨h1, t, hL⟩ : ∃ h1 t, splitOnSub pat cs = h1 :: t := by
          rcases hE : splitOnSub pat cs with _ | ⟨h1, t⟩
          · exact absurd hE (splitOnSub_ne_nil _ _)
          · exact ⟨h1, t, rfl⟩
        rw [hL]
        cases t with
        | nil => simp [joinWith]
        | cons b t2 => simp [joinWith]

/-! ## Helper lemmas: pipeline driver -/

theorem applyList_append_ok (cs1 cs2 : List Change) (fs fs1 : FS)
    (h : applyList cs1 fs = (fs1, none)) :
    applyList (cs1 ++ cs2) fs = applyList cs2 fs1 := by
  induction cs1 generalizing fs with
  | nil =>
    obtain rfl : fs = fs1 := by simpa [applyList] using h
    simp [applyList]
  | cons c rest ih =>
    rw [applyList] at h
    rw [List.cons_append, applyList]
    cases hac : apply_changes fs c with
    | error e => rw [hac] at h; simp at h
    | ok fs' =>
      rw [hac] at h
      exact ih fs' h

theorem execute_of_applyList_ok (cs : List Change) (st : PipeState) (fs1 : FS)
    (h : applyList cs st.fs = (fs1, none)) :
    execute cs st =
      ({ fs := update_codebase_md cs fs1, repo := commit_changes cs st.repo },
       Except.ok PyValue.none) := by
  rw [execute, h]

theorem execute_of_applyList_error (cs : List Change) (st : PipeState) (fs1 : FS) (e : PErr)
    (h : applyList cs st.fs = (fs1, some e)) :
    execute cs st = ({ st with fs := fs1 }, Except.error e) := by
  rw [execute, h]

/-! ## Helper lemmas: staging -/

theorem mem_stage1 (idx : List String) (p a : String) :
    a ∈ stage1 idx p ↔ a ∈ idx ∨ a = p := by
  by_cases h : p ∈ idx
  · simp only [stage1, if_pos h]
    constructor
    · exact Or.inl
    · rintro (ha | rfl)
      · exact ha
      · exact h
  · simp [stage1, if_neg h]

theorem nodup_stage1 (idx : List String) (p : String) (h : idx.Nodup) :
    (stage1 idx p).Nodup := by
  by_cases hp : p ∈ idx
  · simpa [stage1, if_pos hp] using h
  · simp [stage1, if_neg hp, List.nodup_append, h, List.disjoint_singleton, hp]

theorem mem_stageAll (ps : List String) (idx : List String) (a : String) :
    a ∈ stageAll ps idx ↔ a ∈ idx ∨ a ∈ ps := by
  induction ps generalizing idx with
  | nil => simp [stageAll]
  | cons p ps ih =>
    rw [show stageAll (p :: ps) idx = stageAll ps (stage1 idx p) from rfl, ih, mem_stage1]
    simp [List.mem_cons]
    tauto

theorem nodup_stageAll (ps : List String) (idx : List String) (h : idx.Nodup) :
    (stageAll ps idx).Nodup := by
  induction ps generalizing idx with
  | nil => simpa [stageAll] using h
  | cons p ps ih =>
    rw [show stageAll (p :: ps) idx = stageAll ps (stage1 idx p) from rfl]
    exact ih _ (nodup_stage1 idx p h)

/-! ## Claim theorems -/

/-- C1: `execute` runs its phases strictly in order — apply each change in
list order, then document, then commit — and the first failing change aborts
the run with no rollback: the changes before it stay materialized (the final
filesystem is exactly the one they produced), the failing change and all later
changes touch nothing, and neither the changelog write nor the commit
happens. -/
theorem execute_phase_order_and_first_error_aborts :
    (∀ (cs : List Change) (st : PipeState) (fs1 : FS),
        applyList cs st.fs = (fs1, none) →
        execute cs st =
          ({ fs := update_codebase_md cs fs1, repo := commit_changes cs st.repo },
           Except.ok PyValue.none)) ∧
    (∀ (cs1 : List Change) (c : Change) (cs2 : List Change) (st : PipeState)
        (fs1 : FS) (e : PErr),
        applyList cs1 st.fs = (fs1, none) →
        apply_changes fs1 c = Except.error e →
        execute (cs1 ++ c :: cs2) st = ({ st with fs := fs1 }, Except.error e)) := by
  constructor
  · exact fun cs st fs1 h => execute_of_applyList_ok cs st fs1 h
  · intro cs1 c cs2 st fs1 e h1 h2
    have h3 : applyList (cs1 ++ c :: cs2) st.fs = (fs1, some e) := by
      rw [applyList_append_ok cs1 (c :: cs2) st.fs fs1 h1, applyList, h2]
    exact execute_of_applyList_error _ _ _ _ h3

/-- Witness for C1: a run whose second change targets a missing file fails
with `FileNotFound`, keeps the first change's write, leaves the third change
unapplied, and commits nothing; a fully successful run performs all three
phases. -/
theorem execute_phase_order_witness :
    (execute [cAppend] st0 =
       ({ fs := update_codebase_md [cAppend]
              [("a.txt", ['x','h','i']), ("b.txt", ['f','o','o',' ','f','o','o'])],
          repo := commit_changes [cAppend] st0.repo },
        Except.ok PyValue.none)) ∧
    (execute [cAppend, cMissing, cReplace] st0 =
       ({ st0 with fs := [("a.txt", ['x','h','i']), ("b.txt", ['f','o','o',' ','f','o','o'])] },
        Except.error (PErr.fileNotFound "missing.txt"))) :=
  ⟨execute_phase_order_and_first_error_aborts.1 [cAppend] st0 _ (by rfl),
   execute_phase_order_and_first_error_aborts.2 [cAppend] cMissing [cReplace] st0 _ _
     (by rfl) (by rfl)⟩

/-- C2: a replace change whose pattern occurs zero times in the target file's
contents makes `execute` fail with `PatternNotMatched`; the error message
includes the pattern and the file, and the failing operation writes nothing:
the state surfaced with the error is exactly the state before the failing
change, in which the target file still holds its previous contents. -/
theorem execute_replace_zero_matches_fails
    (cs1 : List Change) (c : Change) (cs2 : List Change) (st : PipeState)
    (fs1 : FS) (content : List Char)
    (h1 : applyList cs1 st.fs = (fs1, none))
    (ht : c.change_type = "replace")
    (hf : fsRead fs1 c.target_file = some content)
    (hocc : occursIn c.search_pattern content = false) :
    execute (cs1 ++ c :: cs2) st =
      ({ st with fs := fs1 },
       Except.error (PErr.patternNotMatched (String.mk c.search_pattern) c.target_file)) ∧
    errMsg (PErr.patternNotMatched (String.mk c.search_pattern) c.target_file) =
      "Search pattern \x27" ++ String.mk c.search_pattern ++ "\x27 not found in " ++ c.target_file ∧
    fsRead fs1 c.target_file = some content := by
  refine ⟨?_, rfl, hf⟩
  have happ : apply_changes fs1 c =
      Except.error (PErr.patternNotMatched (String.mk c.search_pattern) c.target_file) := by
    simp only [apply_changes, hf, ht, reSub_of_not_occurs _ _ _ hocc]
    simp
  have h3 : applyList (cs1 ++ c :: cs2) st.fs =
      (fs1, some (PErr.patternNotMatched (String.mk c.search_pattern) c.target_file)) := by
    rw [applyList_append_ok cs1 (c :: cs2) st.fs fs1 h1, applyList, happ]
  exact execute_of_applyList_error _ _ _ _ h3

/-- Witness for C2: a replace whose pattern `qq` does not occur in `a.txt`
fails with `PatternNotMatched` and leaves the filesystem untouched. -/
theorem execute_replace_zero_matches_witness :
    execute [cNoMatch] st0 =
      ({ st0 with fs := fs0 },
       Except.error (PErr.patternNotMatched (String.mk ['q','q']) "a.txt")) :=
  (execute_replace_zero_matches_fails [] cNoMatch [] st0 fs0 ['x']
    (by rfl) (by rfl) (by rfl) (by decide)).1

/-- C3: a successful replace rewrites the target file to the original contents
with ALL occurrences of the pattern substituted by the replacement — the
written text equals `globalSubstitution` (cut the text at every occurrence of
the pattern, sew the pieces back with the replacement), i.e. the substitution
is global, not first-occurrence-only. -/
theorem apply_replace_substitutes_all_occurrences
    (fs : FS) (c : Change) (content : List Char)
    (ht : c.change_type = "replace")
    (hf : fsRead fs c.target_file = some content)
    (hp : c.search_pattern.isEmpty = false)
    (hch : reSub c.search_pattern c.replacement content ≠ content) :
    apply_changes fs c =
      Except.ok (fsWrite fs c.target_file
        (globalSubstitution c.search_pattern c.replacement content)) := by
  rw [← reSub_eq_globalSubstitution c.search_pattern c.replacement hp content]
  simp only [apply_changes, hf, ht, if_neg hch]
  simp

/-- Witness for C3: replacing `foo` by `bar` in a file holding `foo foo`
substitutes both occurrences, producing `bar bar`. -/
theorem apply_replace_substitutes_all_witness :
    apply_changes fs0 cReplace =
      Except.ok (fsWrite fs0 "b.txt"
        (globalSubstitution ['f','o','o'] ['b','a','r'] ['f','o','o',' ','f','o','o'])) ∧
    globalSubstitution ['f','o','o'] ['b','a','r'] ['f','o','o',' ','f','o','o'] =
      ['b','a','r',' ','b','a','r'] :=
  ⟨apply_replace_substitutes_all_occurrences fs0 cReplace ['f','o','o',' ','f','o','o']
      (by rfl) (by rfl) (by rfl) (by simp [cReplace, reSub]),
   by simp [globalSubstitution, splitOnSub, joinWith]⟩

/-- C4: an append on an existing file rewrites it to the old contents
concatenated with the change's `content`, exactly — nothing is trimmed or
inserted — and no other file is modified. -/
theorem apply_append_concatenates_exactly
    (fs : FS) (c : Change) (content : List Char)
    (ht : c.change_type = "append")
    (hf : fsRead fs c.target_file = some content) :
    apply_changes fs c = Except.ok (fsWrite fs c.target_file (content ++ c.content)) ∧
    fsRead (fsWrite fs c.target_file (content ++ c.content)) c.target_file =
      some (content ++ c.content) ∧
    (∀ p, p ≠ c.target_file →
      fsRead (fsWrite fs c.target_file (content ++ c.content)) p = fsRead fs p) := by
  refine ⟨?_, fsRead_fsWrite_same fs c.target_file (content ++ c.content),
    fun p hp => fsRead_fsWrite_other fs c.target_file p (content ++ c.content) hp⟩
  simp [apply_changes, hf, ht]

/-- Witness for C4: appending `hi` to `a.txt` (holding `x`) yields `xhi` and
leaves `b.txt` untouched. -/
theorem apply_append_concatenates_witness :
    apply_changes fs0 cAppend = Except.ok (fsWrite fs0 "a.txt" (['x'] ++ ['h','i'])) ∧
    fsRead (fsWrite fs0 "a.txt" (['x'] ++ ['h','i'])) "a.txt" = some (['x'] ++ ['h','i']) ∧
    fsRead (fsWrite fs0 "a.txt" (['x'] ++ ['h','i'])) "b.txt" = fsRead fs0 "b.txt" := by
  have h := apply_append_concatenates_exactly fs0 cAppend ['x'] (by rfl) (by rfl)
  exact ⟨h.1, h.2.1, h.2.2 "b.txt" (by decide)⟩

/-- C5 counterexample: a fully successful concrete run in which `execute`
creates a new commit (the repository's first, identifier 0) yet returns `None`
— not the identifier of the newly created commit. -/
theorem execute_return_value_counterexample :
    (execute [cAppend] st0).2 = Except.ok PyValue.none ∧
    (execute [cAppend] st0).1.repo.commits = [commitMessage [cAppend]] ∧
    (execute [cAppend] st0).2 ≠ Except.ok (PyValue.commitId 0) := by
  refine ⟨?_, ?_, ?_⟩ <;>
    simp [execute, applyList, apply_changes, st0, fs0, cAppend, fsRead, fsWrite,
      update_codebase_md, commit_changes, stageAll, stage1, gitCommit]

/-- C5 amended: on a successful run `execute` performs the commit but returns
`None`; the commit identifier handed back by the version-control collaborator
is discarded inside `commit_changes`, so the caller never receives it. -/
theorem execute_discards_commit_identifier
    (cs : List Change) (st : PipeState) (fs1 : FS)
    (h : applyList cs st.fs = (fs1, none)) :
    (execute cs st).2 = Except.ok PyValue.none ∧
    (execute cs st).1.repo.commits = st.repo.commits ++ [commitMessage cs] ∧
    (∀ n : Nat, (execute cs st).2 ≠ Except.ok (PyValue.commitId n)) := by
  rw [execute_of_applyList_ok cs st fs1 h]
  refine ⟨rfl, ?_, fun n hn => by simp at hn⟩
  simp [commit_changes, gitCommit]

/-- Witness for C5's amended statement: the sample run returns `None` and adds
exactly the expected commit. -/
theorem execute_discards_commit_identifier_witness :
    (execute [cAppend] st0).2 = Except.ok PyValue.none ∧
    (execute [cAppend] st0).1.repo.commits = [] ++ [commitMessage [cAppend]] ∧
    (execute [cAppend] st0).2 ≠ Except.ok (PyValue.commitId 0) := by
  have h := execute_discards_commit_identifier [cAppend] st0
    [("a.txt", ['x','h','i']), ("b.txt", ['f','o','o',' ','f','o','o'])] (by rfl)
  exact ⟨h.1, h.2.1, h.2.2 0⟩

/-- C6: the commit phase stages the changelog plus every distinct target file
of the change set — each touched path ends up in the index exactly once, even
when several changes share a target — and creates exactly one commit, whose
message is the fixed preamble followed by one line per change description, in
input order. -/
theorem commit_changes_stages_and_commits
    (cs : List Change) (repo : GitRepo) (hnd : repo.index.Nodup) :
    (commit_changes cs repo).commits = repo.commits ++
      ["Refactorizor script applied with the following changes:\n" ++
        String.intercalate "\n" (cs.map (fun c => c.description))] ∧
    (commit_changes cs repo).index.Nodup ∧
    (∀ p, p ∈ (commit_changes cs repo).index ↔
        p ∈ repo.index ∨ p = "CODEBASE.md" ∨ p ∈ cs.map (fun c => c.target_file)) ∧
    (∀ p, p ∈ (commit_changes cs repo).index →
        List.count p (commit_changes cs repo).index = 1) := by
  have hidx : (commit_changes cs repo).index =
      stageAll ("CODEBASE.md" :: cs.map (fun c => c.target_file)) repo.index := rfl
  have hnd2 : (commit_changes cs repo).index.Nodup := by
    rw [hidx]; exact nodup_stageAll _ _ hnd
  refine ⟨by simp [commit_changes, gitCommit, commitMessage], hnd2, ?_, ?_⟩
  · intro p
    rw [hidx, mem_stageAll]
    simp [List.mem_cons]
  · intro p hp
    exact List.count_eq_one_of_mem hnd2 hp

/-- Witness for C6: committing two changes with the same target stages
`a.txt` once, and the message lists both descriptions in order. -/
theorem commit_changes_stages_witness :
    (commit_changes [cAppend, cAppend] { index := [], commits := [] }).commits =
      [] ++ ["Refactorizor script applied with the following changes:\n" ++
        String.intercalate "\n" ([cAppend, cAppend].map (fun c => c.description))] ∧
    List.count "a.txt" (commit_changes [cAppend, cAppend] { index := [], commits := [] }).index = 1 := by
  have h := commit_changes_stages_and_commits [cAppend, cAppend]
    { index := [], commits := [] } (by simp)
  refine ⟨h.1, h.2.2.2 "a.txt" ?_⟩
  rw [(h.2.2.1 "a.txt")]
  simp [cAppend]

/-- C7: the document phase appends to the changelog file (creating it when it
does not exist) the fixed section header containing "Recent Changes", then one
bullet line per change in input order, the bullet text being exactly the
change's description; the previous changelog contents and every other file are
preserved. -/
theorem update_codebase_md_appends (cs : List Change) (fs : FS) :
    fsRead (update_codebase_md cs fs) "CODEBASE.md" =
      some (((fsRead fs "CODEBASE.md").getD []) ++ "\n\n## Recent Changes\n\n".data ++
        changelogLines cs) ∧
    changelogLines cs = (cs.map (fun c => ("- " ++ c.description ++ "\n").data)).flatten ∧
    (∀ p, p ≠ "CODEBASE.md" → fsRead (update_codebase_md cs fs) p = fsRead fs p) := by
  refine ⟨?_, ?_, ?_⟩
  · simp [update_codebase_md, fsRead_fsWrite_same]
  · induction cs with
    | nil => rfl
    | cons c rest ih => simp [changelogLines, ih]
  · intro p hp
    simpa [update_codebase_md] using fsRead_fsWrite_other fs "CODEBASE.md" p _ hp

/-- Witness for C7: documenting one change appends the header and one bullet
to a filesystem without a changelog, and leaves `a.txt` alone. -/
theorem update_codebase_md_appends_witness :
    fsRead (update_codebase_md [cAppend] fs0) "CODEBASE.md" =
      some (((fsRead fs0 "CODEBASE.md").getD []) ++ "\n\n## Recent Changes\n\n".data ++
        changelogLines [cAppend]) ∧
    fsRead (update_codebase_md [cAppend] fs0) "a.txt" = fsRead fs0 "a.txt" := by
  have h := update_codebase_md_appends [cAppend] fs0
  exact ⟨h.1, h.2.2 "a.txt" (by decide)⟩

/-- C8: a change whose type is neither `append` nor `replace`, aimed at an
existing target file, fails with `UnknownChangeType`, and no file is modified:
the error is raised before any write, so the driver surfaces the filesystem
unchanged no matter what follows the failing change. -/
theorem apply_unknown_change_type_fails
    (fs : FS) (c : Change) (content : List Char)
    (h1 : fsRead fs c.target_file = some content)
    (h2 : c.change_type ≠ "append")
    (h3 : c.change_type ≠ "replace") :
    apply_changes fs c = Except.error (PErr.unknownChangeType c.change_type) ∧
    (∀ rest, applyList (c :: rest) fs =
      (fs, some (PErr.unknownChangeType c.change_type))) := by
  have happ : apply_changes fs c = Except.error (PErr.unknownChangeType c.change_type) := by
    simp only [apply_changes, h1]
    rw [if_neg h2, if_neg h3]
  exact ⟨happ, fun rest => by rw [applyList, happ]⟩

/-- Witness for C8: the sample `delete` change on the existing `a.txt` fails
with `UnknownChangeType` and leaves the filesystem as it was. -/
theorem apply_unknown_change_type_witness :
    apply_changes fs0 cDelete = Except.error (PErr.unknownChangeType "delete") ∧
    applyList [cDelete] fs0 = (fs0, some (PErr.unknownChangeType "delete")) := by
  have h := apply_unknown_change_type_fails fs0 cDelete ['x']
    (by rfl) (by decide) (by decide)
  exact ⟨h.1, h.2 []⟩

/-- C9 counterexample: pattern `ab`, replacement `a`, text `abb`.  The pattern
matches once, the replacement text does not contain the pattern, yet the
substituted text `ab` matches again and a second application changes it to
`a` — substitution is not idempotent under the claim's proviso, because a new
occurrence spans the boundary between the replacement and the following
text. -/
theorem reSub_second_application_counterexample :
    occursIn ['a','b'] ['a'] = false ∧
    occursIn ['a','b'] ['a','b','b'] = true ∧
    reSub ['a','b'] ['a'] ['a','b','b'] = ['a','b'] ∧
    reSub ['a','b'] ['a'] (reSub ['a','b'] ['a'] ['a','b','b']) ≠
      reSub ['a','b'] ['a'] ['a','b','b'] := by
  have e1 : reSub ['a','b'] ['a'] ['a','b','b'] = ['a','b'] := by simp [reSub]
  have e2 : reSub ['a','b'] ['a'] ['a','b'] = ['a'] := by simp [reSub]
  refine ⟨by decide, by decide, e1, ?_⟩
  rw [e1, e2]
  decide

/-- C9 amended: applying the same pattern/replacement substitution a second
time is a no-op whenever the substituted text contains no occurrence of the
pattern.  The claim's proviso — that the replacement text alone does not
reintroduce the pattern — is not sufficient, since a new occurrence can span
the boundary between a replacement and the text that follows it. -/
theorem reSub_second_application_noop
    (pat repl s : List Char)
    (_h1 : occursIn pat s = true)
    (h2 : occursIn pat (reSub pat repl s) = false) :
    reSub pat repl (reSub pat repl s) = reSub pat repl s :=
  reSub_of_not_occurs pat repl _ h2

/-- Witness for C9's amended statement: substituting `foo` by `bar` in
`foo foo` gives `bar bar`, on which the same substitution is a no-op. -/
theorem reSub_second_application_noop_witness :
    reSub ['f','o','o'] ['b','a','r']
        (reSub ['f','o','o'] ['b','a','r'] ['f','o','o',' ','f','o','o']) =
      reSub ['f','o','o'] ['b','a','r'] ['f','o','o',' ','f','o','o'] :=
  reSub_second_application_noop ['f','o','o'] ['b','a','r'] ['f','o','o',' ','f','o','o']
    (by decide)
    (by
      have h : reSub ['f','o','o'] ['b','a','r'] ['f','o','o',' ','f','o','o'] =
          ['b','a','r',' ','b','a','r'] := by simp [reSub]
      rw [h]
      decide)

/-- C10: the empty change set is not a no-op: `execute []` still appends the
"Recent Changes" section header (with zero bullet lines) to the changelog,
still stages the changelog, and still creates one commit whose message is the
bare preamble. -/
theorem execute_empty_changeset_not_noop (st : PipeState) :
    execute [] st =
      ({ fs := fsWrite st.fs "CODEBASE.md"
             (((fsRead st.fs "CODEBASE.md").getD []) ++ "\n\n## Recent Changes\n\n".data),
         repo := { index := stage1 st.repo.index "CODEBASE.md",
                   commits := st.repo.commits ++
                     ["Refactorizor script applied with the following changes:\n"] } },
       Except.ok PyValue.none) := by
  rw [execute_of_applyList_ok [] st st.fs rfl]
  simp only [update_codebase_md, changelogLines, commit_changes, stageAll, gitCommit,
    commitMessage, List.map_nil, List.foldl_cons, List.foldl_nil, List.append_nil]
  have hmsg : ("Refactorizor script applied with the following changes:\n" ++
      String.intercalate "\n" ([] : List String)) =
      "Refactorizor script applied with the following changes:\n" := by decide
  rw [hmsg]

end Refactorizor
